import Mathlib

/-!
Verification of `uqbar.io` (file `src/uqbar/io/__init__.py`).

Paths are modelled as lists of path segments. An absolute path such as
`/a/b/c` is the list `["a", "b", "c"]`; the filesystem root `/` is `[]`.
This is the segment ("parts") view of `pathlib.Path` values after
`.absolute()`: per the specification (§3, §4.3 step 1) every input path is
first resolved to absolute form, so the functions below operate on the
resolved segment lists.

A relative path is also a list of segments, where `".."` denotes one parent
step and the empty list denotes the relative path `.` (which is how
`pathlib` represents a path with no parts).
-/

/-- `isAnc p q` holds when the path `p` is an ancestor-of-or-equal-to the
path `q`, i.e. `p`'s segment sequence is an initial segment of `q`'s
(spec glossary: "ancestor-or-self"). -/
def isAnc (p q : List String) : Bool :=
  q.take p.length == p

/-- The string rendering of a relative path built from segments; the empty
segment list renders as `.`, as `pathlib` prints it. -/
def renderRelative (p : List String) : String :=
  if p = [] then "." else String.intercalate "/" p

theorem isAnc_iff_append {p q : List String} :
    isAnc p q = true ↔ ∃ r, q = p ++ r := by
  unfold isAnc
  rw [beq_iff_eq]
  constructor
  · intro h
    exact ⟨q.drop p.length, by conv_lhs => rw [← List.take_append_drop p.length q, h]⟩
  · rintro ⟨r, rfl⟩
    simp [List.take_left]

theorem isAnc_refl (p : List String) : isAnc p p = true := by
  rw [isAnc_iff_append]; exact ⟨[], by simp⟩

theorem isAnc_nil (q : List String) : isAnc [] q = true := by
  rw [isAnc_iff_append]; exact ⟨q, rfl⟩

theorem isAnc_len {p q : List String} (h : isAnc p q = true) :
    p.length ≤ q.length := by
  rw [isAnc_iff_append] at h
  obtain ⟨r, rfl⟩ := h
  simp

theorem isAnc_take {p q : List String} (h : isAnc p q = true) :
    q.take p.length = p := by
  unfold isAnc at h
  exact beq_iff_eq.mp h

theorem isAnc_trans {p q r : List String} (h₁ : isAnc p q = true)
    (h₂ : isAnc q r = true) : isAnc p r = true := by
  rw [isAnc_iff_append] at h₁ h₂ ⊢
  obtain ⟨s, rfl⟩ := h₁
  obtain ⟨t, rfl⟩ := h₂
  exact ⟨s ++ t, by simp⟩

theorem isAnc_antisymm {p q : List String} (h₁ : isAnc p q = true)
    (h₂ : isAnc q p = true) : p = q := by
  have hl : p.length = q.length :=
    Nat.le_antisymm (isAnc_len h₁) (isAnc_len h₂)
  have := isAnc_take h₁
  rw [hl, List.take_length] at this
  exact this.symm

/-- Two ancestors of the same path are comparable: the shorter is an
ancestor of the longer. -/
theorem isAnc_of_isAnc_le {p q r : List String} (hp : isAnc p r = true)
    (hq : isAnc q r = true) (hle : p.length ≤ q.length) :
    isAnc p q = true := by
  have hp' := isAnc_take hp
  have hq' := isAnc_take hq
  unfold isAnc
  rw [beq_iff_eq, ← hq', List.take_take, Nat.min_eq_left hle, hp']

theorem isAnc_dropLast {p : List String} (h : p ≠ []) :
    isAnc p.dropLast p = true := by
  rw [isAnc_iff_append]
  exact ⟨[p.getLast h], (List.dropLast_append_getLast h).symm⟩

theorem isAnc_dropLast_ne {p : List String} (h : p ≠ []) : p.dropLast ≠ p := by
  intro heq
  have := congrArg List.length heq
  rw [List.length_dropLast] at this
  have : p.length ≠ 0 := by
    intro h0; exact h (List.length_eq_zero.mp h0)
  omega

/-- The longest common initial segment of two segment lists: the deepest
common ancestor of two absolute paths. -/
def listLCP : List String → List String → List String
  | a :: as, b :: bs => if a = b then a :: listLCP as bs else []
  | _, [] => []
  | [], _ => []

theorem listLCP_isAnc_left : ∀ a b : List String, isAnc (listLCP a b) a = true := by
  intro a
  induction a with
  | nil => intro b; cases b <;> simp [listLCP, isAnc_nil]
  | cons x as ih =>
    intro b
    cases b with
    | nil => simp [listLCP, isAnc_nil]
    | cons y bs =>
      by_cases hxy : x = y
      · subst hxy
        simp only [listLCP, if_pos rfl]
        have := ih bs
        rw [isAnc_iff_append] at this ⊢
        obtain ⟨r, hr⟩ := this
        exact ⟨r, by simp [hr.symm]⟩
      · simp [listLCP, hxy, isAnc_nil]

theorem listLCP_isAnc_right : ∀ a b : List String, isAnc (listLCP a b) b = true := by
  intro a
  induction a with
  | nil => intro b; cases b <;> simp [listLCP, isAnc_nil]
  | cons x as ih =>
    intro b
    cases b with
    | nil => simp [listLCP, isAnc_nil]
    | cons y bs =>
      by_cases hxy : x = y
      · subst hxy
        simp only [listLCP, if_pos rfl]
        have := ih bs
        rw [isAnc_iff_append] at this ⊢
        obtain ⟨r, hr⟩ := this
        exact ⟨r, by simp [hr.symm]⟩
      · simp [listLCP, hxy, isAnc_nil]

/-- Every common ancestor of `a` and `b` is an ancestor of `listLCP a b`:
`listLCP` is the deepest common ancestor. -/
theorem listLCP_greatest : ∀ a b k : List String,
    isAnc k a = true → isAnc k b = true → isAnc k (listLCP a b) = true := by
  intro a
  induction a with
  | nil =>
    intro b k ha _
    have := isAnc_len ha
    simp at this
    subst this
    exact isAnc_nil _
  | cons x as ih =>
    intro b k ha hb
    cases b with
    | nil =>
      have := isAnc_len hb
      simp at this
      subst this
      exact isAnc_nil _
    | cons y bs =>
      cases k with
      | nil => exact isAnc_nil _
      | cons z ks =>
        rw [isAnc_iff_append] at ha hb
        obtain ⟨r, hr⟩ := ha
        obtain ⟨s, hs⟩ := hb
        simp at hr hs
        have hzx : z = x := hr.1.symm
        have hzy : z = y := hs.1.symm
        have hxy : x = y := by rw [← hzx, hzy]
        subst hxy
        subst hzx
        simp only [listLCP, if_pos rfl]
        have hks_a : isAnc ks as = true := by
          rw [isAnc_iff_append]; exact ⟨r, hr.2⟩
        have hks_b : isAnc ks bs = true := by
          rw [isAnc_iff_append]; exact ⟨s, hs.2⟩
        have := ih bs ks hks_a hks_b
        rw [isAnc_iff_append] at this ⊢
        obtain ⟨t, ht⟩ := this
        exact ⟨t, by simp [ht.symm]⟩

theorem listLCP_self (a : List String) : listLCP a a = a := by
  induction a with
  | nil => rfl
  | cons x as ih => simp [listLCP, ih]

/-- The path itself together with all its ancestors up to the root: the
`[path] ++ path.parents` entries that `find_common_prefix` feeds to its
counter (the traversal order of the entries is immaterial to the counts). -/
def ancestorsOrSelf (q : List String) : List (List String) :=
  (List.range (q.length + 1)).reverse.map (fun n => q.take n)

/-- All counter entries produced by the loop of `find_common_prefix`:
for each input path, the path itself and each of its ancestors. -/
def entriesOf (l : List (List String)) : List (List String) :=
  l.flatMap ancestorsOrSelf

/-- `if b.length ≤ p.length then p else b`: the step of taking the last
element of a list sorted (stably) by segment count, as `sorted(...)[-1]`
does; on ties the later element wins, mirroring the stable sort. -/
def deeper (b p : List String) : List String :=
  if b.length ≤ p.length then p else b

/-- `sorted(candidates, key=len parts)[-1]` when candidates exist, `None`
otherwise.  (In `pathlib`, `len(path.parts)` of an absolute path is the
segment count plus one for the root — a constant shift that leaves all
comparisons unchanged.) -/
def pickDeepest : List (List String) → Option (List String)
  | [] => none
  | x :: xs => some (xs.foldl deeper x)

/-- `find_common_prefix` from `src/uqbar/io/__init__.py`: count, for every
input path, the path itself and each of its ancestors; keep the counter
keys whose count reaches the number of input paths; return the deepest or
`None`.  (`dedup` plays the role of `counter.items()`: the set of keys.
Key order is immaterial: distinct candidates never tie in depth.) -/
def find_common_prefix (l : List (List String)) : Option (List String) :=
  pickDeepest
    (((entriesOf l).dedup).filter (fun k => l.length ≤ (entriesOf l).count k))

theorem mem_ancestorsOrSelf {k q : List String} :
    k ∈ ancestorsOrSelf q ↔ isAnc k q = true := by
  unfold ancestorsOrSelf
  simp only [List.mem_map, List.mem_reverse, List.mem_range]
  constructor
  · rintro ⟨n, _, rfl⟩
    rw [isAnc_iff_append]
    exact ⟨q.drop n, (List.take_append_drop n q).symm⟩
  · intro h
    refine ⟨k.length, ?_, isAnc_take h⟩
    have := isAnc_len h
    omega

theorem nodup_ancestorsOrSelf (q : List String) : (ancestorsOrSelf q).Nodup := by
  unfold ancestorsOrSelf
  apply List.Nodup.map_on
  · intro x hx y hy hxy
    rw [List.mem_reverse, List.mem_range] at hx hy
    have hx' : (q.take x).length = x := by simp; omega
    have hy' : (q.take y).length = y := by simp; omega
    rw [← hx', ← hy', hxy]
  · rw [List.nodup_reverse]
    exact List.nodup_range _

theorem count_one_of_nodup_mem {l : List (List String)} (hn : l.Nodup)
    {a : List String} (h : a ∈ l) : l.count a = 1 := by
  induction l with
  | nil => cases h
  | cons x xs ih =>
    rw [List.count_cons]
    rcases List.mem_cons.mp h with rfl | hmem
    · have hnx : a ∉ xs := (List.nodup_cons.mp hn).1
      rw [List.count_eq_zero.mpr hnx]
      simp
    · have hne : a ≠ x := by
        rintro rfl
        exact (List.nodup_cons.mp hn).1 hmem
      have hne2 : ¬x = a := fun hxa => hne hxa.symm
      rw [ih (List.nodup_cons.mp hn).2 hmem]
      simp [hne2]

theorem count_ancestorsOrSelf (q k : List String) :
    (ancestorsOrSelf q).count k = if isAnc k q = true then 1 else 0 := by
  by_cases h : isAnc k q = true
  · rw [if_pos h]
    exact count_one_of_nodup_mem (nodup_ancestorsOrSelf q)
      (mem_ancestorsOrSelf.mpr h)
  · rw [if_neg h]
    rw [List.count_eq_zero]
    intro hmem
    exact h (mem_ancestorsOrSelf.mp hmem)

theorem count_entriesOf (l : List (List String)) (k : List String) :
    (entriesOf l).count k = l.countP (fun q => isAnc k q) := by
  induction l with
  | nil => rfl
  | cons q l ih =>
    unfold entriesOf at ih ⊢
    rw [List.flatMap_cons, List.count_append, List.countP_cons, ih,
      count_ancestorsOrSelf]
    by_cases h : isAnc k q = true <;> simp [h] <;> omega

theorem le_count_entriesOf {l : List (List String)} {k : List String} :
    l.length ≤ (entriesOf l).count k ↔ ∀ q ∈ l, isAnc k q = true := by
  rw [count_entriesOf]
  constructor
  · intro h
    exact List.countP_eq_length.mp
      (Nat.le_antisymm (List.countP_le_length _) h)
  · intro h
    exact Nat.le_of_eq (List.countP_eq_length.mpr h).symm

theorem mem_entriesOf {l : List (List String)} {k : List String} :
    k ∈ entriesOf l ↔ ∃ q ∈ l, isAnc k q = true := by
  unfold entriesOf
  rw [List.mem_flatMap]
  constructor
  · rintro ⟨q, hq, hk⟩
    exact ⟨q, hq, mem_ancestorsOrSelf.mp hk⟩
  · rintro ⟨q, hq, hk⟩
    exact ⟨q, hq, mem_ancestorsOrSelf.mpr hk⟩

theorem foldl_deeper_mem : ∀ (xs : List (List String)) (acc : List String),
    xs.foldl deeper acc = acc ∨ xs.foldl deeper acc ∈ xs := by
  intro xs
  induction xs with
  | nil => intro acc; left; rfl
  | cons x xs ih =>
    intro acc
    rw [List.foldl_cons]
    rcases ih (deeper acc x) with h | h
    · rw [h]
      unfold deeper
      by_cases hc : acc.length ≤ x.length
      · rw [if_pos hc]
        right
        exact List.mem_cons_self _ _
      · rw [if_neg hc]
        left
        rfl
    · right
      exact List.mem_cons_of_mem _ h

theorem foldl_deeper_le : ∀ (xs : List (List String)) (acc : List String),
    acc.length ≤ (xs.foldl deeper acc).length ∧
      ∀ y ∈ xs, y.length ≤ (xs.foldl deeper acc).length := by
  intro xs
  induction xs with
  | nil => intro acc; exact ⟨Nat.le_refl _, by simp⟩
  | cons x xs ih =>
    intro acc
    obtain ⟨h1, h2⟩ := ih (deeper acc x)
    have hax : acc.length ≤ (deeper acc x).length ∧
        x.length ≤ (deeper acc x).length := by
      unfold deeper
      by_cases hc : acc.length ≤ x.length <;> simp [hc] <;> omega
    refine ⟨Nat.le_trans hax.1 h1, ?_⟩
    intro y hy
    rcases List.mem_cons.mp hy with rfl | hy'
    · exact Nat.le_trans hax.2 h1
    · exact h2 y hy'

/-- Master correctness lemma for `find_common_prefix` on a non-empty input:
it yields some path `m` that is an ancestor-or-self of every input, and
every common ancestor of all inputs is an ancestor of `m` (so `m` is the
deepest common ancestor). -/
theorem fcp_spec {l : List (List String)} (h : l ≠ []) :
    ∃ m, find_common_prefix l = some m ∧ (∀ q ∈ l, isAnc m q = true) ∧
      ∀ k, (∀ q ∈ l, isAnc k q = true) → isAnc k m = true := by
  obtain ⟨q0, l', rfl⟩ := List.exists_cons_of_ne_nil h
  set l := q0 :: l' with hl
  set cands := ((entriesOf l).dedup).filter
    (fun k => l.length ≤ (entriesOf l).count k) with hcands
  have hmem : ∀ k, k ∈ cands ↔ ∀ q ∈ l, isAnc k q = true := by
    intro k
    rw [hcands, List.mem_filter, List.mem_dedup, mem_entriesOf]
    constructor
    · intro ⟨_, hc⟩
      exact le_count_entriesOf.mp (by exact_mod_cast of_decide_eq_true hc)
    · intro hall
      refine ⟨⟨q0, by simp [hl], hall q0 (by simp [hl])⟩, ?_⟩
      exact decide_eq_true (le_count_entriesOf.mpr hall)
  have hroot : ([] : List String) ∈ cands := by
    rw [hmem]
    intro q _
    exact isAnc_nil q
  obtain ⟨c, cs, hcs⟩ : ∃ c cs, cands = c :: cs :=
    List.exists_cons_of_ne_nil (by intro h0; rw [h0] at hroot; exact absurd hroot (List.not_mem_nil _))
  have hpick : find_common_prefix l = some (cs.foldl deeper c) := by
    unfold find_common_prefix
    rw [← hcands, hcs]
    rfl
  set m := cs.foldl deeper c with hm
  have hmmem : m ∈ cands := by
    rw [hcs]
    rcases foldl_deeper_mem cs c with h1 | h1
    · rw [hm, h1]; exact List.mem_cons_self _ _
    · exact List.mem_cons_of_mem _ h1
  have hmanc : ∀ q ∈ l, isAnc m q = true := (hmem m).mp hmmem
  refine ⟨m, hpick, hmanc, ?_⟩
  intro k hk
  have hkc : k ∈ cands := (hmem k).mpr hk
  have hkle : k.length ≤ m.length := by
    rw [hcs] at hkc
    rcases List.mem_cons.mp hkc with rfl | hkc'
    · exact (foldl_deeper_le cs k).1
    · exact (foldl_deeper_le cs c).2 k hkc'
  exact isAnc_of_isAnc_le (hk q0 (by simp [hl])) (hmanc q0 (by simp [hl])) hkle

theorem fcp_single (p : List String) : find_common_prefix [p] = some p := by
  obtain ⟨m, hm, hanc, hgr⟩ := @fcp_spec [p] (by simp)
  have h1 : isAnc m p = true := hanc p (by simp)
  have h2 : isAnc p m = true := by
    apply hgr
    intro q hq
    rw [List.mem_singleton] at hq
    rw [hq]
    exact isAnc_refl p
  rw [hm, isAnc_antisymm h2 h1]

theorem fcp_pair (a b : List String) :
    find_common_prefix [a, b] = some (listLCP a b) := by
  obtain ⟨m, hm, hanc, hgr⟩ := @fcp_spec [a, b] (by simp)
  have hma : isAnc m a = true := hanc a (by simp)
  have hmb : isAnc m b = true := hanc b (by simp)
  have h1 : isAnc m (listLCP a b) = true := listLCP_greatest a b m hma hmb
  have h2 : isAnc (listLCP a b) m = true := by
    apply hgr
    intro q hq
    rcases List.mem_cons.mp hq with hqa | hq'
    · rw [hqa]
      exact listLCP_isAnc_left a b
    · rw [List.mem_singleton] at hq'
      rw [hq']
      exact listLCP_isAnc_right a b
  rw [hm, isAnc_antisymm h2 h1]

/-- `pathlib`'s `p.relative_to(c)`: strips the ancestor `c` from the front
of `p`, raising (modelled as `none`) when `c` is not an ancestor-or-self
of `p`. -/
def path_relative_to (p c : List String) : Option (List String) :=
  if isAnc c p then some (p.drop c.length) else none

/-- The effective source directory of `relative_to`: the source's parent
directory when the source is a file at resolution time, else the source
itself.  The filesystem's file test (`Path.is_file`) is passed in as the
predicate `isFile`. -/
def effectiveSource (isFile : List String → Bool) (source_path : List String) :
    List String :=
  if isFile source_path then source_path.dropLast else source_path

/-- `relative_to` from `src/uqbar/io/__init__.py`: the absolutized source
is replaced by its parent when it is a file, the common ancestor of
source and target is computed by `find_common_prefix`
(`ValueError('No common prefix')` when there is none — a returned root
path is truthy in Python, so only `None` triggers the error), both paths
are taken relative to the common ancestor, and the result is one `..`
segment per remaining source segment followed by the relative target. -/
def relative_to (isFile : List String → Bool)
    (source_path target_path : List String) : Except String (List String) :=
  match find_common_prefix [effectiveSource isFile source_path, target_path] with
  | none => Except.error "No common prefix"
  | some c =>
    match path_relative_to (effectiveSource isFile source_path) c,
        path_relative_to target_path c with
    | some s, some t => Except.ok (List.replicate s.length ".." ++ t)
    | _, _ => Except.error "is not in the subpath"

/-- One normalization step: a `..` segment removes the last accumulated
segment (a parent step), any other segment descends into it. -/
def normStep (acc : List String) (seg : String) : List String :=
  if seg = ".." then acc.dropLast else acc ++ [seg]

/-- Modelled from the spec: the "normalizing" of a concatenated path used
by the round-trip property (§8) — collapse each `..` against the segment
before it, left to right. -/
def normalizePath (p : List String) : List String :=
  p.foldl normStep []

/-- The closed form of `relative_to` on resolved absolute paths: the two
absolute paths always share at least the filesystem root, the common
ancestor is the longest common segment run, and the result is `..` for
every deeper source segment followed by the target's remaining
segments. -/
theorem relative_to_eq (f : List String → Bool) (s t : List String) :
    relative_to f s t =
      Except.ok
        (List.replicate
            ((effectiveSource f s).length -
              (listLCP (effectiveSource f s) t).length) ".." ++
          t.drop (listLCP (effectiveSource f s) t).length) := by
  have h1 : isAnc (listLCP (effectiveSource f s) t) (effectiveSource f s) = true :=
    listLCP_isAnc_left _ _
  have h2 : isAnc (listLCP (effectiveSource f s) t) t = true :=
    listLCP_isAnc_right _ _
  unfold relative_to
  rw [fcp_pair]
  unfold path_relative_to
  dsimp only
  rw [if_pos h1, if_pos h2]
  dsimp only
  rw [List.length_drop]

theorem foldl_normStep_of_no_dots :
    ∀ (p : List String), ".." ∉ p → ∀ acc, p.foldl normStep acc = acc ++ p := by
  intro p
  induction p with
  | nil => intro _ acc; simp
  | cons x xs ih =>
    intro hmem acc
    have hx : x ≠ ".." := by
      intro hx
      exact hmem (by rw [hx]; exact List.mem_cons_self _ _)
    have hxs : ".." ∉ xs := fun h => hmem (List.mem_cons_of_mem _ h)
    rw [List.foldl_cons]
    have hstep : normStep acc x = acc ++ [x] := by
      unfold normStep
      rw [if_neg hx]
    rw [hstep, ih hxs]
    simp

theorem foldl_normStep_replicate :
    ∀ (k : Nat) (acc : List String),
      (List.replicate k "..").foldl normStep acc = acc.take (acc.length - k) := by
  intro k
  induction k with
  | zero => intro acc; simp
  | succ k ih =>
    intro acc
    rw [List.replicate_succ, List.foldl_cons]
    have hstep : normStep acc ".." = acc.dropLast := by
      unfold normStep
      rw [if_pos rfl]
    rw [hstep, ih, List.dropLast_eq_take, List.take_take]
    have h1 : acc.length - 1 - k = acc.length - (k + 1) := by omega
    have h2 : min (acc.length - 1 - k) (acc.length - 1) = acc.length - 1 - k := by
      apply Nat.min_eq_left
      omega
    rw [List.length_take]
    have h3 : min (acc.length - 1) acc.length = acc.length - 1 := by
      apply Nat.min_eq_left
      omega
    rw [h3, h2, h1]

/-- C1: for every non-empty collection of (resolved absolute) paths,
`find_common_prefix` returns the deepest path that is an
ancestor-of-or-equal-to every path in the collection; for a single path
`P` it returns `P` itself, and for `/a/b/c` and `/a/b/d` it returns
`/a/b`. -/
theorem fcp_deepest_common_ancestor :
    (∀ l : List (List String), l ≠ [] →
      ∃ m, find_common_prefix l = some m ∧ (∀ q ∈ l, isAnc m q = true) ∧
        ∀ k, (∀ q ∈ l, isAnc k q = true) → isAnc k m = true) ∧
    (∀ p : List String, find_common_prefix [p] = some p) ∧
    find_common_prefix [["a", "b", "c"], ["a", "b", "d"]] = some ["a", "b"] := by
  refine ⟨fun l h => fcp_spec h, fcp_single, ?_⟩
  rw [fcp_pair]
  rfl

/-- Witness for C1 at the concrete input `[/a, /a/b]`. -/
theorem fcp_deepest_common_ancestor_witness :
    ∃ m, find_common_prefix [["a"], ["a", "b"]] = some m ∧
      (∀ q ∈ [["a"], ["a", "b"]], isAnc m q = true) ∧
      ∀ k, (∀ q ∈ [["a"], ["a", "b"]], isAnc k q = true) → isAnc k m = true :=
  fcp_deepest_common_ancestor.1 [["a"], ["a", "b"]] (by decide)

/-- C2: `relative_to` returns one `..` segment for every segment by which
the effective source directory is deeper than the common ancestor,
followed by the target's segments below the common ancestor, in order;
in particular `relative_to('/a/b/c/file.txt', '/a/b/d/target.txt')` is
`../d/target.txt`. -/
theorem relative_to_shape :
    (∀ (isFile : List String → Bool) (s t : List String),
      relative_to isFile s t =
        Except.ok
          (List.replicate
              ((effectiveSource isFile s).length -
                (listLCP (effectiveSource isFile s) t).length) ".." ++
            t.drop (listLCP (effectiveSource isFile s) t).length)) ∧
    relative_to (fun p => p == ["a", "b", "c", "file.txt"])
        ["a", "b", "c", "file.txt"] ["a", "b", "d", "target.txt"] =
      Except.ok ["..", "d", "target.txt"] ∧
    renderRelative ["..", "d", "target.txt"] = "../d/target.txt" := by
  refine ⟨relative_to_eq, ?_, rfl⟩
  rw [relative_to_eq]
  rfl

/-- C3: round-trip — for a file `A` and a path `B` (both resolved, so
free of `..` segments, per spec §4.3 step 1), joining the result of
`relative_to(A, B)` onto `A`'s parent directory and normalizing the
concatenation yields the same filesystem location as `B`. -/
theorem relative_to_round_trip :
    ∀ (isFile : List String → Bool) (A B r : List String),
      isFile A = true → ".." ∉ A → ".." ∉ B →
      relative_to isFile A B = Except.ok r →
      normalizePath (A.dropLast ++ r) = B := by
  intro f A B r hf hA hB hr
  rw [relative_to_eq] at hr
  have heff : effectiveSource f A = A.dropLast := by
    unfold effectiveSource
    rw [if_pos hf]
  rw [heff] at hr
  have hr' : r = List.replicate (A.dropLast.length - (listLCP A.dropLast B).length) ".." ++
      B.drop (listLCP A.dropLast B).length := by
    injection hr with h
    exact h.symm
  subst hr'
  have hAnoSrc : ".." ∉ A.dropLast := by
    intro h
    rw [List.dropLast_eq_take] at h
    exact hA (List.take_subset _ _ h)
  have hcanc_src : isAnc (listLCP A.dropLast B) A.dropLast = true :=
    listLCP_isAnc_left _ _
  have hcanc_B : isAnc (listLCP A.dropLast B) B = true :=
    listLCP_isAnc_right _ _
  have hlen : (listLCP A.dropLast B).length ≤ A.dropLast.length :=
    isAnc_len hcanc_src
  have htail : ".." ∉ B.drop (listLCP A.dropLast B).length := by
    intro h
    exact hB (List.drop_subset _ _ h)
  unfold normalizePath
  rw [List.foldl_append, foldl_normStep_of_no_dots _ hAnoSrc [], List.nil_append,
    List.foldl_append, foldl_normStep_replicate]
  have hidx : A.dropLast.length - (A.dropLast.length - (listLCP A.dropLast B).length) =
      (listLCP A.dropLast B).length := by
    omega
  rw [hidx, isAnc_take hcanc_src, foldl_normStep_of_no_dots _ htail _]
  have := List.take_append_drop (listLCP A.dropLast B).length B
  rw [isAnc_take hcanc_B] at this
  exact this

/-- Witness for C3 at the spec's scenario paths. -/
theorem relative_to_round_trip_witness :
    normalizePath (["a", "b", "c", "file.txt"].dropLast ++ ["..", "d", "target.txt"]) =
      ["a", "b", "d", "target.txt"] :=
  relative_to_round_trip (fun p => p == ["a", "b", "c", "file.txt"])
    ["a", "b", "c", "file.txt"] ["a", "b", "d", "target.txt"]
    ["..", "d", "target.txt"] (by decide) (by decide) (by decide) (by rfl)

/-- C7: `relative_to` fails with the message `No common prefix` exactly
when the common-prefix computation over the effective source directory
and the target yields no result; otherwise it returns a relative path
without raising a domain error. -/
theorem relative_to_no_common_error_iff :
    ∀ (isFile : List String → Bool) (s t : List String),
      (relative_to isFile s t = Except.error "No common prefix" ↔
        find_common_prefix [effectiveSource isFile s, t] = none) ∧
      ( find_common_prefix [effectiveSource isFile s, t] ≠ none →
        ∃ r, relative_to isFile s t = Except.ok r) := by
  intro f s t
  constructor
  · constructor
    · intro h
      rw [relative_to_eq] at h
      simp at h
    · intro h
      rw [fcp_pair] at h
      simp at h
  · intro _
    exact ⟨_, relative_to_eq f s t⟩

/-- Witness for C7: with a common ancestor present, a relative path is
returned. -/
theorem relative_to_no_common_error_iff_witness :
    ∃ r, relative_to (fun _ => false) ["a"] ["b"] = Except.ok r :=
  (relative_to_no_common_error_iff (fun _ => false) ["a"] ["b"]).2 (by decide)

/-- C8: for the empty collection of paths, `find_common_prefix` yields
the empty result (`None`) — no path is returned. -/
theorem fcp_empty_none : find_common_prefix [] = none := rfl

/-- C10: when the effective source directory equals the (absolutized)
target, `relative_to` returns the relative path `.` (no parent steps, no
descent segments) — `pathlib` renders the empty relative path as `.` —
rather than failing. -/
theorem relative_to_same_dir_dot :
    ∀ (isFile : List String → Bool) (s t : List String),
      effectiveSource isFile s = t →
      relative_to isFile s t = Except.ok [] ∧ renderRelative [] = "." := by
  intro f s t h
  refine ⟨?_, rfl⟩
  rw [relative_to_eq, h, listLCP_self]
  simp

/-- Witness for C10: a file `/a/f.txt` relativized to its own directory
`/a`. -/
theorem relative_to_same_dir_dot_witness :
    relative_to (fun p => p == ["a", "f.txt"]) ["a", "f.txt"] ["a"] =
        Except.ok [] ∧
      renderRelative [] = "." :=
  relative_to_same_dir_dot (fun p => p == ["a", "f.txt"]) ["a", "f.txt"] ["a"]
    (by decide)

/-- A snapshot of the filesystem as `write` observes it: an association
list from file path to contents (a fresh entry shadows an older one) and
the set of directories that exist.  The root `[]` always exists as a
directory. -/
structure FS where
  files : List (List String × String)
  dirs : List (List String)
deriving DecidableEq

/-- The contents of the file at `p`, when a file exists there. -/
def FS.fileContents (fs : FS) (p : List String) : Option String :=
  List.lookup p fs.files

/-- `Path.is_file`. -/
def FS.isFileB (fs : FS) (p : List String) : Bool :=
  (fs.fileContents p).isSome

/-- `Path.is_dir`; the root always exists. -/
def FS.isDirB (fs : FS) (p : List String) : Bool :=
  decide (p = [] ∨ p ∈ fs.dirs)

/-- `Path.exists`. -/
def FS.existsB (fs : FS) (p : List String) : Bool :=
  fs.isFileB p || fs.isDirB p

/-- Writing contents to a path: the new entry shadows any previous one. -/
def FS.setFile (fs : FS) (p : List String) (c : String) : FS :=
  { fs with files := (p, c) :: fs.files }

/-- Create each directory of a list in order, skipping those that exist
and failing when a file occupies one of the paths. -/
def FS.mkdirSeq : FS → List (List String) → Except String FS
  | fs, [] => Except.ok fs
  | fs, p :: rest =>
    if fs.isFileB p then Except.error "NotADirectoryError"
    else if fs.isDirB p then FS.mkdirSeq fs rest
    else FS.mkdirSeq { fs with dirs := p :: fs.dirs } rest

/-- The proper-ancestors-and-self of `d` below the root, shallowest
first: the order in which `mkdir(parents=True)` creates them. -/
def ancestorChain (d : List String) : List (List String) :=
  (List.range d.length).map (fun n => d.take (n + 1))

/-- `Path.mkdir(parents=True)`: create the directory and every missing
ancestor, from the top down.  (The call site in `write` only invokes this
when the directory itself is missing, so the `FileExistsError` of a
pre-existing final directory cannot arise.) -/
def FS.mkdirParents (fs : FS) (d : List String) : Except String FS :=
  fs.mkdirSeq (ancestorChain d)

/-- Truthiness of the Python value returned by `write`: `True` / `False`
from the explicit returns, and the implicit `None` (falsy) of the
"wrote" branch, which has no `return` statement. -/
def pyTruthy : Option Bool → Bool
  | some b => b
  | none => false

/-- `write` from `src/uqbar/io/__init__.py` as a state transformer on the
filesystem snapshot: when the path exists it is opened for reading
(raising `IsADirectoryError` if it is a directory) and rewritten only on
differing contents; otherwise the missing parent chain is created and
the file written (opening for writing fails when the parent is not a
directory).  The outcome is `some false` (`return False`, "preserved"),
`some true` (`return True`, "rewrote"), or `none` (the "wrote" branch
falls off the end of the function, returning `None`). -/
def write (contents : String) (path : List String) (fs : FS) :
    Except String (Option Bool × FS) :=
  if fs.existsB path then
    match fs.fileContents path with
    | none => Except.error "IsADirectoryError"
    | some old_contents =>
      if old_contents = contents then Except.ok (some false, fs)
      else Except.ok (some true, fs.setFile path contents)
  else
    match (if fs.existsB path.dropLast then Except.ok fs
        else fs.mkdirParents path.dropLast) with
    | Except.error e => Except.error e
    | Except.ok fs1 =>
      if fs1.isDirB path.dropLast then
        Except.ok (none, fs1.setFile path contents)
      else Except.error "NotADirectoryError"

/-- Well-formedness of a filesystem snapshot: nothing is both a file and
a directory, and the parent chain of anything that exists consists of
directories. -/
def FS.WF (fs : FS) : Prop :=
  (∀ p, fs.isFileB p = true → fs.isDirB p = false) ∧
  ∀ p q, fs.existsB p = true → isAnc q p = true → q ≠ p → fs.isDirB q = true

theorem setFile_fileContents (fs : FS) (p : List String) (c : String) :
    (fs.setFile p c).fileContents p = some c := by
  unfold FS.setFile FS.fileContents
  simp [List.lookup]

theorem isFileB_congr {fs fs' : FS} (h : fs'.files = fs.files)
    (p : List String) : fs'.isFileB p = fs.isFileB p := by
  unfold FS.isFileB FS.fileContents
  rw [h]

theorem isAnc_mem_ancestorChain {q d : List String} (h : isAnc q d = true)
    (hq : q ≠ []) : q ∈ ancestorChain d := by
  unfold ancestorChain
  rw [List.mem_map]
  refine ⟨q.length - 1, ?_, ?_⟩
  · rw [List.mem_range]
    have h1 := isAnc_len h
    have h2 : q.length ≠ 0 := fun h0 => hq (List.length_eq_zero.mp h0)
    omega
  · have h2 : q.length ≠ 0 := fun h0 => hq (List.length_eq_zero.mp h0)
    have h3 : q.length - 1 + 1 = q.length := by omega
    rw [h3]
    exact isAnc_take h

theorem mem_ancestorChain_isAnc {q d : List String}
    (h : q ∈ ancestorChain d) : isAnc q d = true := by
  unfold ancestorChain at h
  rw [List.mem_map] at h
  obtain ⟨n, hn, hq⟩ := h
  rw [List.mem_range] at hn
  rw [← hq, isAnc_iff_append]
  exact ⟨d.drop (n + 1), (List.take_append_drop (n + 1) d).symm⟩

theorem mkdirSeq_ok :
    ∀ (ps : List (List String)) (fs : FS),
      (∀ q ∈ ps, fs.isFileB q = false) →
      ∃ fs1, fs.mkdirSeq ps = Except.ok fs1 ∧ fs1.files = fs.files ∧
        (∀ q ∈ ps, fs1.isDirB q = true) ∧
        ∀ q, fs.isDirB q = true → fs1.isDirB q = true := by
  intro ps
  induction ps with
  | nil =>
    intro fs _
    exact ⟨fs, rfl, rfl, by simp, fun _ h => h⟩
  | cons p rest ih =>
    intro fs hnf
    have hp : fs.isFileB p = false := hnf p (List.mem_cons_self _ _)
    by_cases hdir : fs.isDirB p = true
    · obtain ⟨fs1, h1, hfiles, hdirs, hmono⟩ :=
        ih fs (fun q hq => hnf q (List.mem_cons_of_mem _ hq))
      refine ⟨fs1, ?_, hfiles, ?_, hmono⟩
      · unfold FS.mkdirSeq
        rw [if_neg (by simp [hp]), if_pos hdir]
        exact h1
      · intro q hq
        rcases List.mem_cons.mp hq with hqp | hq'
        · rw [hqp]
          exact hmono p hdir
        · exact hdirs q hq'
    · set fs' : FS := { fs with dirs := p :: fs.dirs } with hfs'
      have hfiles' : fs'.files = fs.files := rfl
      obtain ⟨fs1, h1, hfiles, hdirs, hmono⟩ := ih fs' (by
        intro q hq
        rw [isFileB_congr hfiles']
        exact hnf q (List.mem_cons_of_mem _ hq))
      have hmono' : ∀ q, fs.isDirB q = true → fs'.isDirB q = true := by
        intro q hq
        unfold FS.isDirB at hq ⊢
        rw [decide_eq_true_iff] at hq ⊢
        rcases hq with h | h
        · exact Or.inl h
        · exact Or.inr (by rw [hfs']; exact List.mem_cons_of_mem _ h)
      have hpdir : fs'.isDirB p = true := by
        unfold FS.isDirB
        rw [decide_eq_true_iff]
        exact Or.inr (by rw [hfs']; exact List.mem_cons_self _ _)
      refine ⟨fs1, ?_, by rw [hfiles, hfiles'], ?_, fun q hq => hmono q (hmono' q hq)⟩
      · unfold FS.mkdirSeq
        rw [if_neg (by simp [hp]), if_neg (by simp [hdir])]
        exact h1
      · intro q hq
        rcases List.mem_cons.mp hq with hqp | hq'
        · rw [hqp]
          exact hmono p hpdir
        · exact hdirs q hq'

theorem mkdirParents_ok (fs : FS) (d : List String)
    (h : ∀ q, isAnc q d = true → fs.isFileB q = false) :
    ∃ fs1, fs.mkdirParents d = Except.ok fs1 ∧ fs1.files = fs.files ∧
      (∀ q, isAnc q d = true → fs1.isDirB q = true) ∧
      ∀ q, fs.isDirB q = true → fs1.isDirB q = true := by
  obtain ⟨fs1, h1, hfiles, hdirs, hmono⟩ :=
    mkdirSeq_ok (ancestorChain d) fs
      (fun q hq => h q (mem_ancestorChain_isAnc hq))
  refine ⟨fs1, h1, hfiles, ?_, hmono⟩
  intro q hq
  by_cases hq0 : q = []
  · rw [hq0]
    unfold FS.isDirB
    simp
  · exact hdirs q (isAnc_mem_ancestorChain hq hq0)

theorem isAnc_eq_of_len {p q : List String} (h : isAnc q p = true)
    (hl : q.length = p.length) : q = p := by
  have := isAnc_take h
  rw [hl, List.take_length] at this
  exact this.symm

theorem write_preserved (fs : FS) (c : String) (p : List String)
    (h : fs.fileContents p = some c) : write c p fs = Except.ok (some false, fs) := by
  have hex : fs.existsB p = true := by
    unfold FS.existsB FS.isFileB
    rw [h]
    simp
  unfold write
  rw [if_pos hex, h]
  dsimp only
  rw [if_pos rfl]

theorem write_rewrote (fs : FS) (c old : String) (p : List String)
    (h : fs.fileContents p = some old) (hne : old ≠ c) :
    write c p fs = Except.ok (some true, fs.setFile p c) := by
  have hex : fs.existsB p = true := by
    unfold FS.existsB FS.isFileB
    rw [h]
    simp
  unfold write
  rw [if_pos hex, h]
  dsimp only
  rw [if_neg hne]

theorem write_wrote_aux (fs : FS) (c : String) (p : List String)
    (hex : fs.existsB p = false)
    (hanc : ∀ q, isAnc q p = true → q ≠ p → fs.isFileB q = false) :
    ∃ fs1 : FS, write c p fs = Except.ok (none, fs1.setFile p c) ∧
      fs1.files = fs.files ∧ fs1.isDirB p.dropLast = true ∧
      (∀ q, fs.isDirB q = true → fs1.isDirB q = true) ∧
      (fs.existsB p.dropLast = false →
        ∀ q, isAnc q p.dropLast = true → fs1.isDirB q = true) := by
  have hp0 : p ≠ [] := by
    intro h0
    rw [h0] at hex
    unfold FS.existsB FS.isDirB at hex
    simp at hex
  by_cases hpar : fs.existsB p.dropLast = true
  · have hpfile : fs.isFileB p.dropLast = false :=
      hanc _ (isAnc_dropLast hp0) (isAnc_dropLast_ne hp0)
    have hpdir : fs.isDirB p.dropLast = true := by
      unfold FS.existsB at hpar
      rw [hpfile] at hpar
      simpa using hpar
    refine ⟨fs, ?_, rfl, hpdir, fun _ h => h, ?_⟩
    · unfold write
      rw [if_neg (by simp [hex]), if_pos hpar]
      dsimp only
      rw [if_pos hpdir]
    · intro hcontra
      rw [hpar] at hcontra
      cases hcontra
  · have hanc' : ∀ q, isAnc q p.dropLast = true → fs.isFileB q = false := by
      intro q hq
      apply hanc q (isAnc_trans hq (isAnc_dropLast hp0))
      intro hqp
      have h1 := isAnc_len hq
      rw [hqp, List.length_dropLast] at h1
      have h2 : p.length ≠ 0 := fun h0 => hp0 (List.length_eq_zero.mp h0)
      omega
    obtain ⟨fs1, h1, hfiles, hdirs, hmono⟩ := mkdirParents_ok fs p.dropLast hanc'
    have hpdir : fs1.isDirB p.dropLast = true := hdirs _ (isAnc_refl _)
    have hparf : fs.existsB p.dropLast = false := Bool.eq_false_iff.mpr hpar
    refine ⟨fs1, ?_, hfiles, hpdir, hmono, fun _ => hdirs⟩
    unfold write
    rw [if_neg (by simp [hex]), if_neg (by simp [hparf]), h1]
    dsimp only
    rw [if_pos hpdir]

theorem write_ok_contents {fs fs' : FS} {c : String} {p : List String}
    {r : Option Bool} (h : write c p fs = Except.ok (r, fs')) :
    fs'.fileContents p = some c := by
  unfold write at h
  by_cases hex : fs.existsB p = true
  · rw [if_pos hex] at h
    cases hcont : fs.fileContents p with
    | none =>
      rw [hcont] at h
      exact absurd h (by simp)
    | some old =>
      rw [hcont] at h
      dsimp only at h
      by_cases heq : old = c
      · rw [if_pos heq] at h
        simp only [Except.ok.injEq, Prod.mk.injEq] at h
        obtain ⟨-, h2⟩ := h
        rw [← h2, hcont, heq]
      · rw [if_neg heq] at h
        simp only [Except.ok.injEq, Prod.mk.injEq] at h
        obtain ⟨-, h2⟩ := h
        rw [← h2]
        exact setFile_fileContents fs p c
  · rw [if_neg hex] at h
    cases hmk : (if fs.existsB p.dropLast then Except.ok fs
        else fs.mkdirParents p.dropLast) with
    | error e =>
      rw [hmk] at h
      exact absurd h (by simp)
    | ok fs1 =>
      rw [hmk] at h
      dsimp only at h
      by_cases hdir : fs1.isDirB p.dropLast = true
      · rw [if_pos hdir] at h
        simp only [Except.ok.injEq, Prod.mk.injEq] at h
        obtain ⟨-, h2⟩ := h
        rw [← h2]
        exact setFile_fileContents fs1 p c
      · rw [if_neg hdir] at h
        exact absurd h (by simp)

/-- C4: the outcome of `write` distinguishes written/changed from
preserved: `False` (falsy, "preserved") when the destination exists with
equal contents, `True` (truthy, "rewrote") when it exists with differing
contents, and `None` ("wrote") when it does not exist (the latter under
the filesystem-access premise that no ancestor of the destination is a
file, spec §7(a)). -/
theorem write_outcomes :
    (∀ (fs : FS) (c : String) (p : List String),
      fs.fileContents p = some c → write c p fs = Except.ok (some false, fs)) ∧
    (∀ (fs : FS) (c old : String) (p : List String),
      fs.fileContents p = some old → old ≠ c →
      write c p fs = Except.ok (some true, fs.setFile p c)) ∧
    (∀ (fs : FS) (c : String) (p : List String),
      fs.existsB p = false →
      (∀ q, isAnc q p = true → q ≠ p → fs.isFileB q = false) →
      ∃ fs' : FS, write c p fs = Except.ok (none, fs')) ∧
    pyTruthy (some false) = false ∧ pyTruthy (some true) = true ∧
    (none : Option Bool) ≠ some false ∧ (none : Option Bool) ≠ some true ∧
    (some true : Option Bool) ≠ some false := by
  refine ⟨write_preserved, write_rewrote, ?_, rfl, rfl, by simp, by simp, by simp⟩
  intro fs c p hex hanc
  obtain ⟨fs1, h1, -⟩ := write_wrote_aux fs c p hex hanc
  exact ⟨fs1.setFile p c, h1⟩

/-- Witness for C4: the three outcomes on concrete filesystems. -/
theorem write_outcomes_witness :
    write "X" ["a", "f.txt"] ⟨[(["a", "f.txt"], "X")], [["a"]]⟩ =
        Except.ok (some false, ⟨[(["a", "f.txt"], "X")], [["a"]]⟩) ∧
    write "Y" ["a", "f.txt"] ⟨[(["a", "f.txt"], "X")], [["a"]]⟩ =
        Except.ok (some true,
          FS.setFile ⟨[(["a", "f.txt"], "X")], [["a"]]⟩ ["a", "f.txt"] "Y") ∧
    ∃ fs' : FS, write "X" ["new", "f.txt"] ⟨[], []⟩ = Except.ok (none, fs') :=
  ⟨write_outcomes.1 ⟨[(["a", "f.txt"], "X")], [["a"]]⟩ "X" ["a", "f.txt"] (by rfl),
   write_outcomes.2.1 ⟨[(["a", "f.txt"], "X")], [["a"]]⟩ "Y" "X" ["a", "f.txt"]
     (by rfl) (by decide),
   write_outcomes.2.2.1 ⟨[], []⟩ "X" ["new", "f.txt"] (by rfl)
     (fun _ _ _ => rfl)⟩

/-- C5: idempotence of `write` — when the destination holds exactly the
given contents, no write occurs and the state is unchanged (a "preserved"
`False` outcome); consequently, after any successful `write`, a second
`write` of the same contents performs no physical write: it returns the
state it was given, reporting "preserved". -/
theorem write_idempotent :
    (∀ (fs : FS) (c : String) (p : List String),
      fs.fileContents p = some c →
      write c p fs = Except.ok (some false, fs)) ∧
    ∀ (fs fs' : FS) (c : String) (p : List String) (r : Option Bool),
      write c p fs = Except.ok (r, fs') →
      write c p fs' = Except.ok (some false, fs') := by
  refine ⟨write_preserved, ?_⟩
  intro fs fs' c p r h
  exact write_preserved fs' c p (write_ok_contents h)

/-- Witness for C5: writing twice into an empty filesystem. -/
theorem write_idempotent_witness :
    write "X" ["a"] ⟨[(["a"], "X")], []⟩ =
      Except.ok (some false, ⟨[(["a"], "X")], []⟩) :=
  write_idempotent.2 ⟨[], []⟩ ⟨[(["a"], "X")], []⟩ "X" ["a"] none (by rfl)

/-- C9: for a destination that does not exist (and whose parent chain is
not blocked by a file, spec §7(a)), `write` creates all missing
intermediate parent directories and then writes the file so that it holds
exactly the given contents; concretely, `write("X", "/new/deep/path/f.txt")`
on an empty filesystem creates `/new`, `/new/deep`, `/new/deep/path` and
writes the file. -/
theorem write_creates_and_writes :
    (∀ (fs : FS) (c : String) (p : List String),
      FS.WF fs → fs.existsB p = false →
      (∀ q, isAnc q p = true → q ≠ p → fs.isFileB q = false) →
      ∃ fs' : FS, write c p fs = Except.ok (none, fs') ∧
        fs'.fileContents p = some c ∧
        ∀ q, isAnc q p = true → q ≠ p → fs'.isDirB q = true) ∧
    write "X" ["new", "deep", "path", "f.txt"] ⟨[], []⟩ =
      Except.ok (none,
        ⟨[(["new", "deep", "path", "f.txt"], "X")],
          [["new", "deep", "path"], ["new", "deep"], ["new"]]⟩) := by
  constructor
  · intro fs c p hwf hex hanc
    obtain ⟨fs1, h1, hfiles, hpdir, hmono, hboot⟩ := write_wrote_aux fs c p hex hanc
    refine ⟨fs1.setFile p c, h1, setFile_fileContents fs1 p c, ?_⟩
    intro q hq hqp
    have hp0 : p ≠ [] := by
      intro h0
      rw [h0] at hex
      unfold FS.existsB FS.isDirB at hex
      simp at hex
    have hsame : (fs1.setFile p c).isDirB q = fs1.isDirB q := rfl
    rw [hsame]
    have hq' : isAnc q p.dropLast = true := by
      have hlen := isAnc_len hq
      have hne : q.length ≠ p.length := by
        intro hl
        exact hqp (isAnc_eq_of_len hq hl)
      apply isAnc_of_isAnc_le hq (isAnc_dropLast hp0)
      rw [List.length_dropLast]
      omega
    by_cases hpar : fs.existsB p.dropLast = true
    · by_cases hqpar : q = p.dropLast
      · rw [hqpar]
        exact hpdir
      · exact hmono q (hwf.2 p.dropLast q hpar hq' hqpar)
    · exact hboot (Bool.eq_false_iff.mpr hpar) q hq'
  · rfl

/-- Witness for C9: the spec scenario on an empty, well-formed
filesystem. -/
theorem write_creates_and_writes_witness :
    ∃ fs' : FS,
      write "X" ["new", "deep", "f.txt"] ⟨[], []⟩ = Except.ok (none, fs') ∧
        fs'.fileContents ["new", "deep", "f.txt"] = some "X" ∧
        ∀ q, isAnc q ["new", "deep", "f.txt"] = true →
          q ≠ ["new", "deep", "f.txt"] → fs'.isDirB q = true :=
  write_creates_and_writes.1 ⟨[], []⟩ "X" ["new", "deep", "f.txt"]
    ⟨fun _ h => absurd h (by simp [FS.isFileB, FS.fileContents, List.lookup]),
      fun p q hex hanc hne => by
        exfalso
        have hp : p = [] := by
          simpa [FS.existsB, FS.isFileB, FS.isDirB, FS.fileContents,
            List.lookup] using hex
        rw [hp] at hanc
        have hq := isAnc_len hanc
        simp at hq
        exact hne (by rw [hp, hq])⟩
    (by rfl) (fun _ _ _ => rfl)

/-- A finite directory-tree snapshot (spec §3 "Directory-tree node"):
named subdirectory trees and file names. -/
inductive DirTree where
  | node : List (String × DirTree) → List String → DirTree

/-- Stable insertion by a Boolean "less or equal" comparison. -/
def insertLE {α : Type} (le : α → α → Bool) (x : α) : List α → List α
  | [] => [x]
  | y :: ys => if le x y then x :: y :: ys else y :: insertLE le x ys

/-- Stable insertion sort, modelling Python's stable `sorted`. -/
def sortByLE {α : Type} (le : α → α → Bool) : List α → List α
  | [] => []
  | x :: xs => insertLE le x (sortByLE le xs)

theorem insertLE_perm {α : Type} (le : α → α → Bool) (x : α) :
    ∀ l : List α, (insertLE le x l).Perm (x :: l) := by
  intro l
  induction l with
  | nil => simp [insertLE]
  | cons y ys ih =>
    unfold insertLE
    by_cases h : le x y = true
    · rw [if_pos h]
    · rw [if_neg h]
      exact List.Perm.trans (List.Perm.cons y ih) (List.Perm.swap x y ys)

theorem sortByLE_perm {α : Type} (le : α → α → Bool) :
    ∀ l : List α, (sortByLE le l).Perm l := by
  intro l
  induction l with
  | nil => simp [sortByLE]
  | cons x xs ih =>
    unfold sortByLE
    exact List.Perm.trans (insertLE_perm le x (sortByLE le xs))
      (List.Perm.cons x ih)

/-- The subdirectory entries in the name order `sorted(iterdir())`
produces. -/
def sortPairs (cs : List (String × DirTree)) : List (String × DirTree) :=
  sortByLE (fun a b => decide (a.1 ≤ b.1)) cs

/-- File names in sorted order. -/
def sortNames (fs : List String) : List String :=
  sortByLE (fun a b => decide (a ≤ b)) fs

theorem sortPairs_perm (cs : List (String × DirTree)) :
    (sortPairs cs).Perm cs :=
  sortByLE_perm _ cs

mutual

/-- `walk` from `src/uqbar/io/__init__.py` on a directory-tree snapshot:
list the current directory's entries in sorted order, split directories
from files (Python sorts all entries together and partitions while
iterating, which yields the directories in sorted order and the files in
sorted order), yield the `(directory, subdirectories, files)` triple
before the recursion when `top_down`, after it otherwise.  `base` is the
absolute path of the directory the tree `t` describes. -/
def walk (top_down : Bool) (base : List String) :
    DirTree → List (List String × List (List String) × List (List String))
  | DirTree.node cs fs =>
    if top_down then
      (base, (sortPairs cs).map (fun c => base ++ [c.1]),
          (sortNames fs).map (fun f => base ++ [f])) ::
        walkList top_down base (sortPairs cs)
    else
      walkList top_down base (sortPairs cs) ++
        [(base, (sortPairs cs).map (fun c => base ++ [c.1]),
          (sortNames fs).map (fun f => base ++ [f]))]
termination_by t => sizeOf t
decreasing_by
  all_goals
    have h1 := (sortPairs_perm cs).sizeOf_eq_sizeOf
    simp only [DirTree.node.sizeOf_spec]
    omega

/-- The `for directory_path in directory_paths: yield from walk(...)`
loop: the concatenated walks of the (sorted) subdirectories. -/
def walkList (top_down : Bool) (base : List String) :
    List (String × DirTree) →
      List (List String × List (List String) × List (List String))
  | [] => []
  | (n, t) :: rest =>
    walk top_down (base ++ [n]) t ++ walkList top_down base rest
termination_by l => sizeOf l
decreasing_by
  · simp only [List.cons.sizeOf_spec, Prod.mk.sizeOf_spec]
    omega
  · simp only [List.cons.sizeOf_spec]
    omega

end

mutual

/-- Well-formedness of a directory-tree snapshot: within each directory
the subdirectory names are distinct (as on a real filesystem), recursively. -/
def wfB : DirTree → Bool
  | DirTree.node cs _ => decide ((cs.map Prod.fst).Nodup) && wfListB cs
termination_by t => sizeOf t
decreasing_by
  simp only [DirTree.node.sizeOf_spec]
  omega

/-- `wfB` over a list of subdirectory entries. -/
def wfListB : List (String × DirTree) → Bool
  | [] => true
  | (_, t) :: rest => wfB t && wfListB rest
termination_by l => sizeOf l
decreasing_by
  · simp only [List.cons.sizeOf_spec, Prod.mk.sizeOf_spec]
    omega
  · simp only [List.cons.sizeOf_spec]
    omega

end

/-- `p` is a strict (proper) ancestor of `q`. -/
def strictAnc (p q : List String) : Prop :=
  isAnc p q = true ∧ p ≠ q

theorem dirTree_strong_ind (P : DirTree → Prop)
    (step : ∀ t, (∀ t', sizeOf t' < sizeOf t → P t') → P t) : ∀ t, P t := by
  have key : ∀ n t, sizeOf t ≤ n → P t := by
    intro n
    induction n with
    | zero =>
      intro t ht
      apply step
      intro t' h'
      exact absurd (Nat.lt_of_lt_of_le h' ht) (Nat.not_lt_zero _)
    | succ n ih =>
      intro t ht
      apply step
      intro t' h'
      apply ih
      omega
  exact fun t => key (sizeOf t) t (Nat.le_refl _)

theorem wfListB_mem :
    ∀ l : List (String × DirTree), wfListB l = true →
      ∀ nc ∈ l, wfB nc.2 = true := by
  intro l
  induction l with
  | nil =>
    intro _ nc hnc
    exact absurd hnc (List.not_mem_nil nc)
  | cons c rest ih =>
    intro hwf nc hnc
    obtain ⟨n, t⟩ := c
    simp only [wfListB, Bool.and_eq_true] at hwf
    rcases List.mem_cons.mp hnc with h | h
    · rw [h]
      exact hwf.1
    · exact ih hwf.2 nc h

theorem mem_sizeOf_lt {cs : List (String × DirTree)} {fs : List String}
    {nc : String × DirTree} (h : nc ∈ sortPairs cs) :
    sizeOf nc.2 < sizeOf (DirTree.node cs fs) := by
  have h1 : sizeOf nc < sizeOf (sortPairs cs) := List.sizeOf_lt_of_mem h
  have h2 := (sortPairs_perm cs).sizeOf_eq_sizeOf
  obtain ⟨n, t⟩ := nc
  simp only [DirTree.node.sizeOf_spec]
  simp only [Prod.mk.sizeOf_spec] at h1
  omega

theorem walkList_mem_split :
    ∀ (l : List (String × DirTree)) (td : Bool) (base : List String) e,
      e ∈ walkList td base l →
      ∃ n t, (n, t) ∈ l ∧ e ∈ walk td (base ++ [n]) t := by
  intro l
  induction l with
  | nil =>
    intro td base e he
    simp only [walkList] at he
    exact absurd he (List.not_mem_nil e)
  | cons c rest ih =>
    intro td base e he
    obtain ⟨n, t⟩ := c
    simp only [walkList] at he
    rcases List.mem_append.mp he with h | h
    · exact ⟨n, t, List.mem_cons_self _ _, h⟩
    · obtain ⟨m, t', hmem, hwalk⟩ := ih td base e h
      exact ⟨m, t', List.mem_cons_of_mem _ hmem, hwalk⟩

theorem walk_anc :
    ∀ (t : DirTree) (td : Bool) (base : List String),
      ∀ e ∈ walk td base t, isAnc base e.1 = true := by
  intro t
  induction t using dirTree_strong_ind with
  | step t ih =>
    cases t with
    | node cs fs =>
      intro td base e he
      have hsplit : e.1 = base ∨ e ∈ walkList td base (sortPairs cs) := by
        cases td
        · simp only [walk, if_neg (by simp : ¬(false = true))] at he
          rcases List.mem_append.mp he with h | h
          · exact Or.inr h
          · rw [List.mem_singleton] at h
            exact Or.inl (by rw [h])
        · simp only [walk, if_pos rfl] at he
          rcases List.mem_cons.mp he with h | h
          · exact Or.inl (by rw [h])
          · exact Or.inr h
      rcases hsplit with h | h
      · rw [h]
        exact isAnc_refl base
      · obtain ⟨n, t', hmem, hwalk⟩ := walkList_mem_split (sortPairs cs) td base e h
        have hrec := ih t' (mem_sizeOf_lt hmem) td (base ++ [n]) e hwalk
        exact isAnc_trans (isAnc_iff_append.mpr ⟨[n], rfl⟩) hrec

/-- Every triple produced under a subdirectory has a directory path that
strictly extends the enclosing base. -/
theorem walkList_anc {l : List (String × DirTree)} {td : Bool}
    {base : List String} {e} (he : e ∈ walkList td base l) :
    isAnc base e.1 = true ∧ base.length < e.1.length := by
  obtain ⟨n, t, hmem, hwalk⟩ := walkList_mem_split l td base e he
  have h1 := walk_anc t td (base ++ [n]) e hwalk
  have h2 := isAnc_len h1
  rw [List.length_append, List.length_singleton] at h2
  constructor
  · exact isAnc_trans (isAnc_iff_append.mpr ⟨[n], rfl⟩) h1
  · omega

theorem walk_true_eq (base : List String) (cs : List (String × DirTree))
    (fs : List String) :
    walk true base (DirTree.node cs fs) =
      (base, (sortPairs cs).map (fun c => base ++ [c.1]),
          (sortNames fs).map (fun f => base ++ [f])) ::
        walkList true base (sortPairs cs) := by
  simp [walk]

theorem walk_false_eq (base : List String) (cs : List (String × DirTree))
    (fs : List String) :
    walk false base (DirTree.node cs fs) =
      walkList false base (sortPairs cs) ++
        [(base, (sortPairs cs).map (fun c => base ++ [c.1]),
          (sortNames fs).map (fun f => base ++ [f]))] := by
  simp [walk]

/-- Triples coming from two differently-named sibling subdirectories have
incomparable directory paths. -/
theorem cross_not_anc {base : List String} {n m : String} {a b : List String}
    (hn : isAnc (base ++ [n]) a = true) (hm : isAnc (base ++ [m]) b = true)
    (hnm : n ≠ m) : ¬ strictAnc b a := by
  rintro ⟨hba, -⟩
  have h1 : isAnc (base ++ [m]) a = true := isAnc_trans hm hba
  have h2 : isAnc (base ++ [n]) (base ++ [m]) = true :=
    isAnc_of_isAnc_le hn h1 (by simp)
  have h3 : base ++ [n] = base ++ [m] := isAnc_eq_of_len h2 (by simp)
  have h4 : [n] = [m] := List.append_cancel_left h3
  have h5 : n = m := by
    injection h4
  exact hnm h5

theorem not_strictAnc_of_lt {base q : List String}
    (h : base.length < q.length) : ¬ strictAnc q base := by
  rintro ⟨hanc, -⟩
  have := isAnc_len hanc
  omega

theorem walkList_pairwise_td :
    ∀ (l : List (String × DirTree)) (base : List String),
      (l.map Prod.fst).Nodup →
      (∀ nc ∈ l, List.Pairwise (fun p q => ¬ strictAnc q p)
        ((walk true (base ++ [nc.1]) nc.2).map (fun e => e.1))) →
      List.Pairwise (fun p q => ¬ strictAnc q p)
        ((walkList true base l).map (fun e => e.1)) := by
  intro l
  induction l with
  | nil =>
    intro base _ _
    simp [walkList]
  | cons c rest ih =>
    intro base hnodup hall
    obtain ⟨n, t⟩ := c
    have hnodup' : (rest.map Prod.fst).Nodup :=
      (List.nodup_cons.mp (by simpa using hnodup)).2
    have hn_not : n ∉ rest.map Prod.fst :=
      (List.nodup_cons.mp (by simpa using hnodup)).1
    simp only [walkList, List.map_append]
    rw [List.pairwise_append]
    refine ⟨hall (n, t) (List.mem_cons_self _ _),
      ih base hnodup' (fun nc h => hall nc (List.mem_cons_of_mem _ h)), ?_⟩
    intro a ha b hb
    rw [List.mem_map] at ha hb
    obtain ⟨e, he, hea⟩ := ha
    obtain ⟨e', he', heb⟩ := hb
    obtain ⟨m, t', hmem, hwalk⟩ := walkList_mem_split rest true base e' he'
    have hanc_a : isAnc (base ++ [n]) a = true := by
      rw [← hea]
      exact walk_anc t true (base ++ [n]) e he
    have hanc_b : isAnc (base ++ [m]) b = true := by
      rw [← heb]
      exact walk_anc t' true (base ++ [m]) e' hwalk
    have hnm : n ≠ m := by
      intro hn
      apply hn_not
      rw [hn]
      exact List.mem_map_of_mem Prod.fst hmem
    exact cross_not_anc hanc_a hanc_b hnm

theorem walkList_pairwise_bu :
    ∀ (l : List (String × DirTree)) (base : List String),
      (l.map Prod.fst).Nodup →
      (∀ nc ∈ l, List.Pairwise (fun p q => ¬ strictAnc p q)
        ((walk false (base ++ [nc.1]) nc.2).map (fun e => e.1))) →
      List.Pairwise (fun p q => ¬ strictAnc p q)
        ((walkList false base l).map (fun e => e.1)) := by
  intro l
  induction l with
  | nil =>
    intro base _ _
    simp [walkList]
  | cons c rest ih =>
    intro base hnodup hall
    obtain ⟨n, t⟩ := c
    have hnodup' : (rest.map Prod.fst).Nodup :=
      (List.nodup_cons.mp (by simpa using hnodup)).2
    have hn_not : n ∉ rest.map Prod.fst :=
      (List.nodup_cons.mp (by simpa using hnodup)).1
    simp only [walkList, List.map_append]
    rw [List.pairwise_append]
    refine ⟨hall (n, t) (List.mem_cons_self _ _),
      ih base hnodup' (fun nc h => hall nc (List.mem_cons_of_mem _ h)), ?_⟩
    intro a ha b hb
    rw [List.mem_map] at ha hb
    obtain ⟨e, he, hea⟩ := ha
    obtain ⟨e', he', heb⟩ := hb
    obtain ⟨m, t', hmem, hwalk⟩ := walkList_mem_split rest false base e' he'
    have hanc_a : isAnc (base ++ [n]) a = true := by
      rw [← hea]
      exact walk_anc t false (base ++ [n]) e he
    have hanc_b : isAnc (base ++ [m]) b = true := by
      rw [← heb]
      exact walk_anc t' false (base ++ [m]) e' hwalk
    have hnm : m ≠ n := by
      intro hm
      apply hn_not
      rw [← hm]
      exact List.mem_map_of_mem Prod.fst hmem
    exact cross_not_anc hanc_b hanc_a hnm

theorem walk_pairwise :
    ∀ t : DirTree, wfB t = true → ∀ base : List String,
      List.Pairwise (fun p q => ¬ strictAnc q p)
        ((walk true base t).map (fun e => e.1)) ∧
      List.Pairwise (fun p q => ¬ strictAnc p q)
        ((walk false base t).map (fun e => e.1)) := by
  intro t
  induction t using dirTree_strong_ind with
  | step t ih =>
    cases t with
    | node cs fs =>
      intro hwf base
      simp only [wfB, Bool.and_eq_true] at hwf
      have hnodup : (cs.map Prod.fst).Nodup := of_decide_eq_true hwf.1
      have hnodup' : ((sortPairs cs).map Prod.fst).Nodup :=
        ((sortPairs_perm cs).map Prod.fst).nodup_iff.mpr hnodup
      have hchild : ∀ nc ∈ sortPairs cs, wfB nc.2 = true := fun nc h =>
        wfListB_mem cs hwf.2 nc ((sortPairs_perm cs).mem_iff.mp h)
      constructor
      · rw [walk_true_eq, List.map_cons, List.pairwise_cons]
        constructor
        · intro q hq
          rw [List.mem_map] at hq
          obtain ⟨e, he, heq⟩ := hq
          have hlt := (walkList_anc he).2
          rw [heq] at hlt
          exact not_strictAnc_of_lt hlt
        · exact walkList_pairwise_td (sortPairs cs) base hnodup'
            (fun nc h =>
              ((ih nc.2 (mem_sizeOf_lt h) (hchild nc h)) (base ++ [nc.1])).1)
      · rw [walk_false_eq, List.map_append, List.map_cons, List.map_nil,
          List.pairwise_append]
        refine ⟨walkList_pairwise_bu (sortPairs cs) base hnodup'
            (fun nc h =>
              ((ih nc.2 (mem_sizeOf_lt h) (hchild nc h)) (base ++ [nc.1])).2),
          List.pairwise_singleton _ _, ?_⟩
        intro a ha b hb
        rw [List.mem_singleton] at hb
        rw [List.mem_map] at ha
        obtain ⟨e, he, hea⟩ := ha
        have hlt := (walkList_anc he).2
        rw [hea] at hlt
        rw [hb]
        exact not_strictAnc_of_lt hlt

/-- C6: for every finite (well-formed) directory tree, pre-order `walk`
never emits a directory's triple after a triple of one of its descendants
(so each directory comes before all its descendants), and post-order
`walk` never emits a directory's triple before a triple of one of its
descendants (so each directory comes after all its subdirectories and
their descendants). -/
theorem walk_order_pre_post :
    ∀ (t : DirTree) (base : List String), wfB t = true →
      List.Pairwise (fun p q => ¬ strictAnc q p)
        ((walk true base t).map (fun e => e.1)) ∧
      List.Pairwise (fun p q => ¬ strictAnc p q)
        ((walk false base t).map (fun e => e.1)) :=
  fun t base hwf => walk_pairwise t hwf base

/-- Witness for C6 at a concrete two-level tree. -/
theorem walk_order_pre_post_witness :
    List.Pairwise (fun p q => ¬ strictAnc q p)
      ((walk true []
        (DirTree.node [("b", DirTree.node [] ["y"]), ("a", DirTree.node [] [])]
          ["x"])).map (fun e => e.1)) ∧
    List.Pairwise (fun p q => ¬ strictAnc p q)
      ((walk false []
        (DirTree.node [("b", DirTree.node [] ["y"]), ("a", DirTree.node [] [])]
          ["x"])).map (fun e => e.1)) :=
  walk_order_pre_post
    (DirTree.node [("b", DirTree.node [] ["y"]), ("a", DirTree.node [] [])] ["x"])
    [] (by simp [wfB, wfListB])
